import Mathlib

set_option maxRecDepth 16000
set_option maxHeartbeats 2000000

/-!
Formal model of the sift_pyocl keypoint-matching core.

The development embeds, as executable Lean definitions, the host-side code of
`sift-src/match.py` (class `MatchPlan`: buffer lifecycle, reset, upload,
dispatch, download, result assembly) and of `sift-src/utils.py`
(`calc_size`, `matching_correction`).  Device-side kernels (`matching.cl`,
`memset.cl`) are part of the same project but their sources are not in the
tree considered here; where a definition stands in for such a kernel it is
modelled from the specification of the kernel contract and marked as such in
its doc comment.  Machine floating-point values (float32/float64) are
idealised as exact rationals; numpy record arrays become lists of records;
numpy exceptions become explicit error values.
-/

/-- Descriptor Record: one SIFT keypoint, the element type `dtype_kp` of
`match.py` (fields x, y, scale, angle as float32 plus a 128-byte descriptor).
Floats and descriptor bytes are idealised as rationals. -/
structure Keypoint where
  x : ℚ
  y : ℚ
  scale : ℚ
  angle : ℚ
  desc : List ℚ
deriving DecidableEq

/-- One dimension of `utils.calc_size`: the Python expression
`(int(i) + int(j) - 1) & ~(int(j) - 1)` with Python's arbitrary-precision
two's-complement bitwise operators, which `Int.land` / `Int.lnot` implement. -/
def calcSizeDim (i j : ℤ) : ℤ := Int.land (i + j - 1) (Int.lnot (j - 1))

/-- The function `utils.calc_size`, tuple branch: elementwise over `zip(shape, blocksize)`. -/
def calc_size (shape blocksize : List ℤ) : List ℤ :=
  (shape.zip blocksize).map fun p => calcSizeDim p.1 p.2

/-- Rounding `n` up to the next multiple of `b`, the intended meaning of one
dimension of `calc_size`. -/
def roundUp (n b : ℕ) : ℕ := b * ((n + b - 1) / b)

theorem ldiff_two_pow_sub_one (m k : ℕ) :
    Nat.ldiff m (2 ^ k - 1) = 2 ^ k * (m / 2 ^ k) := by
  apply Nat.eq_of_testBit_eq
  intro i
  rw [Nat.testBit_ldiff, Nat.testBit_two_pow_sub_one, Nat.testBit_mul_pow_two]
  rcases lt_or_le i k with h | h
  · simp [h, Nat.not_le_of_lt h]
  · have h' : ¬ i < k := not_lt.mpr h
    simp only [h', decide_False, Bool.not_false, Bool.and_true, ge_iff_le, h,
      decide_True, Bool.true_and]
    rw [← Nat.shiftRight_eq_div_pow, Nat.testBit_shiftRight]
    congr 1
    omega

theorem calcSizeDim_eq_roundUp (n k : ℕ) :
    calcSizeDim (n : ℤ) ((2 : ℤ) ^ k) = (roundUp n (2 ^ k) : ℤ) := by
  have hk : (1 : ℕ) ≤ 2 ^ k := Nat.one_le_two_pow
  have h1 : (n : ℤ) + (2 : ℤ) ^ k - 1 = ((n + 2 ^ k - 1 : ℕ) : ℤ) := by
    rw [Nat.cast_sub (by omega)]
    push_cast
    ring
  have h2 : (2 : ℤ) ^ k - 1 = ((2 ^ k - 1 : ℕ) : ℤ) := by
    rw [Nat.cast_sub hk]
    push_cast
    ring
  rw [calcSizeDim, h1, h2]
  have h3 : Int.lnot ((2 ^ k - 1 : ℕ) : ℤ) = Int.negSucc (2 ^ k - 1) := rfl
  rw [h3]
  have h4 : Int.land ((n + 2 ^ k - 1 : ℕ) : ℤ) (Int.negSucc (2 ^ k - 1)) =
      (Nat.ldiff (n + 2 ^ k - 1) (2 ^ k - 1) : ℤ) := rfl
  rw [h4, ldiff_two_pow_sub_one]
  rfl

theorem roundUp_ge (n b : ℕ) (hb : 0 < b) : n ≤ roundUp n b := by
  have hdm := Nat.div_add_mod (n + b - 1) b
  have hlt : (n + b - 1) % b < b := Nat.mod_lt _ hb
  unfold roundUp
  set q := (n + b - 1) / b with hq
  set r := (n + b - 1) % b with hr
  set a := b * q with ha
  omega

theorem roundUp_min (n b m : ℕ) (hb : 0 < b) (hd : b ∣ m) (hm : n ≤ m) :
    roundUp n b ≤ m := by
  obtain ⟨t, rfl⟩ := hd
  have hlt : (n + b - 1) / b < t + 1 := by
    rw [Nat.div_lt_iff_lt_mul hb]
    calc n + b - 1 ≤ b * t + (b - 1) := by omega
    _ < (t + 1) * b := by
        have : (t + 1) * b = b * t + b := by ring
        omega
  exact Nat.mul_le_mul_left b (by omega)

/-- C10: per-dimension characterisation of `calc_size` — for a non-negative
shape entry `i` and a power-of-two blocksize entry `2^k`, the corresponding
output entry is `2^k * ((i + 2^k - 1) / 2^k)`, the least multiple of the
blocksize that is at least `i`; in particular it covers all `i` work items. -/
theorem calc_size_least_multiple (shape : List ℤ) (ks : List ℕ) (d : ℕ)
    (i : ℤ) (k : ℕ) (hi : 0 ≤ i) (hgi : shape[d]? = some i)
    (hgk : ks[d]? = some k) :
    (calc_size shape (ks.map fun k => (2 : ℤ) ^ k))[d]? =
        some ((2 : ℤ) ^ k * ((i + 2 ^ k - 1) / 2 ^ k)) ∧
      i ≤ (2 : ℤ) ^ k * ((i + 2 ^ k - 1) / 2 ^ k) ∧
      ((2 : ℤ) ^ k) ∣ (2 : ℤ) ^ k * ((i + 2 ^ k - 1) / 2 ^ k) ∧
      ∀ m : ℤ, ((2 : ℤ) ^ k) ∣ m → i ≤ m →
        (2 : ℤ) ^ k * ((i + 2 ^ k - 1) / 2 ^ k) ≤ m := by
  have hb : (0 : ℕ) < 2 ^ k := Nat.pos_pow_of_pos _ (by norm_num)
  -- replace i by its natural-number value
  obtain ⟨n, rfl⟩ : ∃ n : ℕ, i = (n : ℤ) := ⟨i.toNat, (Int.toNat_of_nonneg hi).symm⟩
  -- the entry of the zipped map
  have hzip : (shape.zip (ks.map fun k => (2 : ℤ) ^ k))[d]? = some ((n : ℤ), (2 : ℤ) ^ k) := by
    rw [List.getElem?_zip_eq_some]
    refine ⟨hgi, ?_⟩
    rw [List.getElem?_map, hgk]
    rfl
  have hentry : (calc_size shape (ks.map fun k => (2 : ℤ) ^ k))[d]? =
      some (calcSizeDim (n : ℤ) ((2 : ℤ) ^ k)) := by
    rw [calc_size, List.getElem?_map, hzip]
    rfl
  have hval : calcSizeDim (n : ℤ) ((2 : ℤ) ^ k) = (roundUp n (2 ^ k) : ℤ) :=
    calcSizeDim_eq_roundUp n k
  have hform : (roundUp n (2 ^ k) : ℤ) =
      (2 : ℤ) ^ k * (((n : ℤ) + 2 ^ k - 1) / 2 ^ k) := by
    have hcast : ((n : ℤ) + 2 ^ k - 1) = ((n + 2 ^ k - 1 : ℕ) : ℤ) := by
      have hk : (1 : ℕ) ≤ 2 ^ k := Nat.one_le_two_pow
      rw [Nat.cast_sub (by omega)]
      push_cast
      ring
    rw [roundUp, hcast]
    push_cast
    ring_nf
  refine ⟨?_, ?_, ?_, ?_⟩
  · rw [hentry, hval, hform]
  · rw [← hform]
    exact_mod_cast roundUp_ge n (2 ^ k) hb
  · exact Dvd.intro _ rfl
  · intro m hdm hnm
    rw [← hform]
    obtain ⟨mm, rfl⟩ : ∃ mn : ℕ, m = (mn : ℤ) :=
      ⟨m.toNat, (Int.toNat_of_nonneg (le_trans (by positivity) hnm)).symm⟩
    have hd' : 2 ^ k ∣ mm := by exact_mod_cast hdm
    have hm' : n ≤ mm := by exact_mod_cast hnm
    exact_mod_cast roundUp_min n (2 ^ k) mm hb hd' hm'

/-- Witness for `calc_size_least_multiple` at shape (5, 0), blocksize (4, 8). -/
theorem calc_size_least_multiple_witness :
    (calc_size [(5 : ℤ), 0] ([2, 3].map fun k => (2 : ℤ) ^ k))[0]? =
        some ((2 : ℤ) ^ 2 * (((5 : ℤ) + 2 ^ 2 - 1) / 2 ^ 2)) ∧
      (5 : ℤ) ≤ (2 : ℤ) ^ 2 * (((5 : ℤ) + 2 ^ 2 - 1) / 2 ^ 2) ∧
      ((2 : ℤ) ^ 2) ∣ (2 : ℤ) ^ 2 * (((5 : ℤ) + 2 ^ 2 - 1) / 2 ^ 2) ∧
      ∀ m : ℤ, ((2 : ℤ) ^ 2) ∣ m → (5 : ℤ) ≤ m →
        (2 : ℤ) ^ 2 * (((5 : ℤ) + 2 ^ 2 - 1) / 2 ^ 2) ≤ m :=
  calc_size_least_multiple [(5 : ℤ), 0] [2, 3] 0 5 2 (by norm_num) rfl rfl

/-! ## Transform estimator: `utils.matching_correction` -/

/-- The 2N×6 design matrix built in `matching_correction`
(`utils.py` lines 99–106): even rows are `[x, y, 1, 0, 0, 0]`, odd rows
`[0, 0, 0, x, y, 1]`, with `(x, y)` the set-A coordinates (column 0 of the
matching) of pair `r / 2`. -/
def designX (m : List (Keypoint × Keypoint)) : Matrix (Fin (2 * m.length)) (Fin 6) ℚ :=
  Matrix.of fun r c =>
    let p := m.get ⟨r.val / 2, by have := r.isLt; omega⟩
    if r.val % 2 = 0 then ![p.1.x, p.1.y, 1, 0, 0, 0] c else ![0, 0, 0, p.1.x, p.1.y, 1] c

/-- The 2N×1 target vector `y` of `matching_correction` (`utils.py` lines
107–109): even rows the set-B x coordinate, odd rows the set-B y coordinate. -/
def targetY (m : List (Keypoint × Keypoint)) : Matrix (Fin (2 * m.length)) (Fin 1) ℚ :=
  Matrix.of fun r _ =>
    let p := m.get ⟨r.val / 2, by have := r.isLt; omega⟩
    if r.val % 2 = 0 then p.2.x else p.2.y

/-- The matrix `A = numpy.dot(X.transpose(), X)`, the 6×6 normal-equations matrix. -/
def normalMat (m : List (Keypoint × Keypoint)) : Matrix (Fin 6) (Fin 6) ℚ :=
  (designX m).transpose * designX m

/-- Modelled from the spec: `numpy.linalg.inv` on the 6×6 system — an external
library collaborator; per the spec the estimator "fails with a singular-system
condition if XᵀX is non-invertible", so the inverse exists exactly when the
determinant is nonzero and is then `det⁻¹ • adjugate`. -/
def qInv6 (A : Matrix (Fin 6) (Fin 6) ℚ) : Matrix (Fin 6) (Fin 6) ℚ :=
  A.det⁻¹ • A.adjugate

/-- The function `utils.matching_correction`: the least-squares affine fit
`sol = inv(XᵀX) · (Xᵀ y)`; `none` models `numpy.linalg.inv` raising
`LinAlgError` on a singular system. -/
def matching_correction (m : List (Keypoint × Keypoint)) :
    Option (Matrix (Fin 6) (Fin 1) ℚ) :=
  if (normalMat m).det = 0 then none
  else some (qInv6 (normalMat m) * ((designX m).transpose * targetY m))

/-- C5: for a non-degenerate configuration (invertible normal matrix),
`matching_correction` returns exactly `inv(XᵀX) · (Xᵀy)` built from the design
matrix with set-A coordinates as inputs and set-B coordinates as targets, and
that vector solves the normal equations `(XᵀX) s = Xᵀ y` — it is the
normal-equations least-squares solution. -/
theorem matching_correction_solves_normal_eqs (m : List (Keypoint × Keypoint))
    (hd : (normalMat m).det ≠ 0) :
    matching_correction m =
        some (qInv6 (normalMat m) * ((designX m).transpose * targetY m)) ∧
      normalMat m * (qInv6 (normalMat m) * ((designX m).transpose * targetY m)) =
        (designX m).transpose * targetY m := by
  constructor
  · rw [matching_correction, if_neg hd]
  · rw [qInv6, Matrix.smul_mul, Matrix.mul_smul, ← Matrix.mul_assoc,
      Matrix.mul_adjugate, Matrix.smul_mul, Matrix.one_mul, smul_smul,
      inv_mul_cancel₀ hd, one_smul]

/-- Keypoint with given coordinates, zero auxiliary fields and an all-zero
128-byte descriptor (used for concrete instances). -/
def kpc (x y : ℚ) : Keypoint := ⟨x, y, 0, 0, List.replicate 128 0⟩

/-- Three non-collinear identity matches: (0,0), (1,0), (0,1). -/
def estFit3 : List (Keypoint × Keypoint) :=
  [(kpc 0 0, kpc 0 0), (kpc 1 0, kpc 1 0), (kpc 0 1, kpc 0 1)]

/-- Explicit inverse of `normalMat estFit3`, certifying non-degeneracy. -/
def estFit3Inv : Matrix (Fin 6) (Fin 6) ℚ :=
  !![2,1,-1,0,0,0; 1,2,-1,0,0,0; -1,-1,1,0,0,0;
     0,0,0,2,1,-1; 0,0,0,1,2,-1; 0,0,0,-1,-1,1]

/-- Witness for `matching_correction_solves_normal_eqs` on three non-collinear
matches. -/
theorem matching_correction_solves_normal_eqs_witness :
    matching_correction estFit3 =
        some (qInv6 (normalMat estFit3) *
          ((designX estFit3).transpose * targetY estFit3)) ∧
      normalMat estFit3 * (qInv6 (normalMat estFit3) *
          ((designX estFit3).transpose * targetY estFit3)) =
        (designX estFit3).transpose * targetY estFit3 :=
  matching_correction_solves_normal_eqs estFit3
    (Matrix.det_ne_zero_of_right_inverse (B := estFit3Inv)
      (Matrix.ext (by with_unfolding_all decide)))

/-- All set-A points of the matching lie on one line `a·x + b·y = c`
with `(a, b) ≠ (0, 0)`. -/
def collinearMatches (m : List (Keypoint × Keypoint)) : Prop :=
  ∃ a b c : ℚ, (a ≠ 0 ∨ b ≠ 0) ∧ ∀ p ∈ m, a * p.1.x + b * p.1.y = c

/-- Any zero, one or two points are collinear. -/
theorem collinearMatches_of_short (m : List (Keypoint × Keypoint))
    (h : m.length < 3) : collinearMatches m := by
  rcases m with _ | ⟨p, _ | ⟨q, _ | ⟨r, rest⟩⟩⟩
  · exact ⟨1, 0, 0, Or.inl one_ne_zero, by simp⟩
  · refine ⟨1, 0, p.1.x, Or.inl one_ne_zero, ?_⟩
    intro u hu
    simp only [List.mem_singleton] at hu
    subst hu
    ring
  · by_cases hx : p.1.x = q.1.x
    · refine ⟨1, 0, p.1.x, Or.inl one_ne_zero, ?_⟩
      intro u hu
      simp only [List.mem_cons, List.mem_singleton, List.not_mem_nil, or_false] at hu
      rcases hu with h1 | h1 <;> subst h1
      · ring
      · rw [hx]
        ring
    · refine ⟨q.1.y - p.1.y, p.1.x - q.1.x,
        (q.1.y - p.1.y) * p.1.x + (p.1.x - q.1.x) * p.1.y,
        Or.inr (sub_ne_zero.mpr hx), ?_⟩
      intro u hu
      simp only [List.mem_cons, List.mem_singleton, List.not_mem_nil, or_false] at hu
      rcases hu with h1 | h1 <;> subst h1 <;> ring
  · exfalso
    simp only [List.length_cons] at h
    omega

/-- A common line for the set-A points forces the normal matrix to be
singular: the vector `(a, b, −c, 0, 0, 0)` is a nonzero kernel vector. -/
theorem normalMat_det_zero_of_collinear (m : List (Keypoint × Keypoint))
    (h : collinearMatches m) : (normalMat m).det = 0 := by
  obtain ⟨a, b, c, hab, hline⟩ := h
  rw [← Matrix.exists_mulVec_eq_zero_iff]
  refine ⟨![a, b, -c, 0, 0, 0], ?_, ?_⟩
  · intro hv
    rcases hab with ha | hb
    · exact ha (by simpa using congrFun hv 0)
    · exact hb (by simpa using congrFun hv 1)
  · have hX : (designX m).mulVec ![a, b, -c, 0, 0, 0] = 0 := by
      funext r
      have hmem : m.get ⟨r.val / 2, by have := r.isLt; omega⟩ ∈ m :=
        List.get_mem _ _ _
      have hl := hline _ hmem
      by_cases hr : r.val % 2 = 0
      · simp only [Matrix.mulVec, designX, Matrix.of_apply, Matrix.dotProduct,
          hr, if_true, Fin.sum_univ_succ, Fin.sum_univ_zero,
          Matrix.cons_val_succ, Matrix.cons_val_zero, Pi.zero_apply]
        linear_combination hl
      · simp only [Matrix.mulVec, designX, Matrix.of_apply, Matrix.dotProduct,
          hr, if_false, Fin.sum_univ_succ, Fin.sum_univ_zero,
          Matrix.cons_val_succ, Matrix.cons_val_zero, Pi.zero_apply]
        ring
    rw [normalMat, ← Matrix.mulVec_mulVec, hX, Matrix.mulVec_zero]

/-- C6: `matching_correction` fails (no transform is returned) whenever the
matching has fewer than 3 pairs or all set-A input points are collinear,
because the 6×6 normal matrix is then singular. -/
theorem matching_correction_singular_none (m : List (Keypoint × Keypoint))
    (h : m.length < 3 ∨ collinearMatches m) : matching_correction m = none := by
  have hcol : collinearMatches m := h.elim (collinearMatches_of_short m) id
  rw [matching_correction, if_pos (normalMat_det_zero_of_collinear m hcol)]

/-- Three collinear matches, all on the line y = 0. -/
def estCol3 : List (Keypoint × Keypoint) :=
  [(kpc 0 0, kpc 0 0), (kpc 1 0, kpc 1 0), (kpc 2 0, kpc 2 0)]

/-- Witness for `matching_correction_singular_none` on three collinear
matches. -/
theorem matching_correction_singular_none_witness :
    matching_correction estCol3 = none :=
  matching_correction_singular_none estCol3
    (Or.inr ⟨0, 1, 0, Or.inr one_ne_zero, by
      intro p hp
      simp only [estCol3, List.mem_cons, List.mem_singleton,
        List.not_mem_nil, or_false] at hp
      rcases hp with h | h | h <;> subst h <;> norm_num [kpc]⟩)

/-! ## Matching plan: `match.py` (class `MatchPlan`) -/

/-- Squared Euclidean distance in descriptor space between two keypoints. -/
def descDist (p q : Keypoint) : ℚ :=
  ((p.desc.zip q.desc).map fun ab => (ab.1 - ab.2) ^ 2).sum

/-- One step of the best/second-best scan over candidate distances.  Only a
strictly smaller distance replaces the current best (or second best), so a tie
keeps the earlier — lower — index. -/
def bestTwoStep : (Option (ℚ × ℕ) × Option ℚ) → (ℕ × ℚ) → (Option (ℚ × ℕ) × Option ℚ)
  | (none, s), (j, d) => (some (d, j), s)
  | (some (bd, bi), none), (j, d) =>
      if d < bd then (some (d, j), some bd) else (some (bd, bi), some d)
  | (some (bd, bi), some sd), (j, d) =>
      if d < bd then (some (d, j), some bd)
      else if d < sd then (some (bd, bi), some d)
      else (some (bd, bi), some sd)

/-- Modelled from the spec: the device matching kernel (`matching.cl`, not in
the tree) computes for one element of set A the best and second-best squared
descriptor distance over all of set B, ties broken by lowest index. -/
def bestTwo (a : Keypoint) (B : List Keypoint) : Option (ℚ × ℕ) × Option ℚ :=
  (((List.range B.length).zip (B.map fun q => descDist a q)).foldl bestTwoStep (none, none))

/-- Modelled from the spec: the distance-ratio acceptance test — the best
index is accepted iff `best ≤ rsq * second`, where `rsq` is the squared
threshold the host passes to the kernel; with fewer than two candidates the
second-best distance is unbounded and a sole best candidate is accepted. -/
def acceptBest (rsq : ℚ) : Option (ℚ × ℕ) × Option ℚ → Option ℕ
  | (none, _) => none
  | (some (_, bi), none) => some bi
  | (some (bd, bi), some sd) => if bd ≤ rsq * sd then some bi else none

/-- The kernel's output for set-A element `i`: the accepted `(i, best)` index
pair, or nothing. -/
def kernelEntry (A B : List Keypoint) (rsq : ℚ) (i : ℕ) : Option (ℕ × ℕ) :=
  match A[i]? with
  | some a => (acceptBest rsq (bestTwo a B)).map fun j => (i, j)
  | none => none

/-- Modelled from the spec: the index pairs accepted by the matching kernel,
one per accepted element of set A, in ascending set-A index order. -/
def kernelPairs (A B : List Keypoint) (rsq : ℚ) : List (ℕ × ℕ) :=
  (List.range A.length).filterMap (kernelEntry A B rsq)

/-- Host-visible effects of one `match` call, in program order. -/
inductive Event
  | lock | growKp1 | growKp2 | growMatch | reset
  | uploadKp1 | uploadKp2 | dispatch | downloadCnt | downloadMatch | unlock
deriving DecidableEq

/-- Failures a `match` call can raise. -/
inductive MatchErr
  | assertionError | indexError | valueError
deriving DecidableEq

/-- Device-resident state owned by one `MatchPlan`: buffer capacities (the
match buffer keeps its allocation shape, rows × cols of int32) and contents. -/
structure PlanState where
  capKp1 : ℕ
  capKp2 : ℕ
  matchRows : ℕ
  matchCols : ℕ
  kp1buf : List Keypoint
  kp2buf : List Keypoint
  matchBuf : List ℤ
  cntBuf : ℤ
deriving DecidableEq

/-- Junk content of freshly allocated (uninitialised) device memory. -/
def junkKp : Keypoint := ⟨0, 0, 0, 0, []⟩

/-- Match-buffer capacity measured in index pairs (two int32 per pair). -/
def pairCapacity (s : PlanState) : ℕ := s.matchRows * s.matchCols / 2

/-- Construction, `MatchPlan.__init__` + `_allocate_buffers` (match.py 122–127): keypoint
buffers of `size` records, match buffer of shape `(size, 2)` int32, one-cell
counter.  Uninitialised `pyopencl.array.empty` memory is modelled as junk. -/
def mkPlan (size : ℕ) : PlanState :=
  { capKp1 := size, capKp2 := size, matchRows := size, matchCols := 2,
    kp1buf := List.replicate size junkKp,
    kp2buf := List.replicate size junkKp,
    matchBuf := List.replicate (size * 2) 0,
    cntBuf := 0 }

/-- Buffer growth at the top of `match` (match.py 180–188): each keypoint
buffer is reallocated to the exact input length when the input is larger; the
match buffer is reallocated to a rank-1 `(min(n2, n1),)` int32 array when
`min(n2, n1)` exceeds its current total element count `size`. -/
def growState (s : PlanState) (n1 n2 : ℕ) : PlanState :=
  let s1 := if s.capKp1 < n1 then
    { s with capKp1 := n1, kp1buf := List.replicate n1 junkKp } else s
  let s2 := if s1.capKp2 < n2 then
    { s1 with capKp2 := n2, kp2buf := List.replicate n2 junkKp } else s1
  if s2.matchRows * s2.matchCols < min n2 n1 then
    { s2 with matchRows := min n2 n1, matchCols := 1,
              matchBuf := List.replicate (min n2 n1) 0 }
  else s2

/-- The reallocation warnings the growth step emits, in program order. -/
def growEvents (s : PlanState) (n1 n2 : ℕ) : List Event :=
  (if s.capKp1 < n1 then [Event.growKp1] else []) ++
  (if s.capKp2 < n2 then [Event.growKp2] else []) ++
  (if s.matchRows * s.matchCols < min n2 n1 then [Event.growMatch] else [])

/-- Sentinel keypoint written by `memset_kp`: −1.0 in each float field, 0 in
each of the 128 descriptor bytes. -/
def sentinelKp : Keypoint := ⟨-1, -1, -1, -1, List.replicate 128 0⟩

/-- Reset, `MatchPlan._reset_buffer` (match.py 212–226).  The memset kernels
(`memset.cl`, not in the tree) are modelled from the spec: `memset_kp` fills a
keypoint buffer with the −1.0 / 0 sentinel record, `memset_int` fills the
whole match buffer (all `size` int32 cells) with −1 and the counter with 0. -/
def resetState (s : PlanState) : PlanState :=
  { s with kp1buf := List.replicate s.capKp1 sentinelKp,
           kp2buf := List.replicate s.capKp2 sentinelKp,
           matchBuf := List.replicate (s.matchRows * s.matchCols) (-1),
           cntBuf := 0 }

/-- Upload, `enqueue_copy` of the two inputs into the keypoint buffers (192–193). -/
def uploadState (s : PlanState) (A B : List Keypoint) : PlanState :=
  { s with kp1buf := A ++ s.kp1buf.drop A.length,
           kp2buf := B ++ s.kp2buf.drop B.length }

/-- Row-major int32 image of a list of index pairs. -/
def flatPairs : List (ℕ × ℕ) → List ℤ
  | [] => []
  | p :: ps => (p.1 : ℤ) :: (p.2 : ℤ) :: flatPairs ps

/-- The matching-kernel dispatch (match.py 195–203), modelled from the spec:
the kernel receives the passed capacity (`shape[0]` of the match buffer) and
writes accepted pair `k` to slot `k` while below both that capacity and the
buffer's physical pair capacity; the downloaded counter is the number of
validly written pairs (the spec calls the counter-sized prefix of the match
buffer its valid prefix). -/
def dispatchState (s : PlanState) (A B : List Keypoint) (rsq : ℚ) : PlanState :=
  let pairs := kernelPairs A B rsq
  let written := pairs.take (min s.matchRows (pairCapacity s))
  { s with matchBuf := flatPairs written ++ s.matchBuf.drop (2 * written.length),
           cntBuf := (written.length : ℤ) }

/-- numpy integer ("fancy") index validity on a rank-1 array of length
`len`: in range iff `−len ≤ idx < len`. -/
def npIdxValid (len : ℕ) (idx : ℤ) : Bool :=
  decide (-(len : ℤ) ≤ idx ∧ idx < (len : ℤ))

/-- numpy integer indexing on a rank-1 array: negative indices count from the
end (callers must have checked `npIdxValid`). -/
def npIndex (l : List Keypoint) (idx : ℤ) : Keypoint :=
  if 0 ≤ idx then l.getD idx.toNat junkKp
  else l.getD (idx + l.length).toNat junkKp

/-- Download and result assembly (match.py 206–210): `size` is the downloaded
counter; `matching[:size, 0]` on a rank-1 (grown) match buffer raises
`IndexError`; assigning a shorter-than-`size` column raises a broadcast
`ValueError` (unreachable here since the counter never exceeds the row count);
out-of-range fancy indices raise `IndexError`; otherwise each result row `i`
is `(nkp1[matching[i, 0]], nkp2[matching[i, 1]])`. -/
def assembleResult (A B : List Keypoint) (s : PlanState) :
    Except MatchErr (List (Keypoint × Keypoint)) :=
  let size := s.cntBuf.toNat
  let idx0 := fun i : ℕ => s.matchBuf.getD (2 * i) 0
  let idx1 := fun i : ℕ => s.matchBuf.getD (2 * i + 1) 0
  if s.matchCols ≠ 2 then Except.error MatchErr.indexError
  else if s.matchRows < size then Except.error MatchErr.valueError
  else if ((List.range size).all fun i => npIdxValid A.length (idx0 i)) &&
       ((List.range size).all fun i => npIdxValid B.length (idx1 i)) then
    Except.ok ((List.range size).map fun i => (npIndex A (idx0 i), npIndex B (idx1 i)))
  else Except.error MatchErr.indexError

/-- A caller-supplied numpy array as `match` sees it: rank, record-array
flag and (for rank-1 record arrays) its keypoint content. -/
structure NDInput where
  ndim : ℕ
  recarray : Bool
  data : List Keypoint
deriving DecidableEq

/-- The in-lock pipeline of one `match` call: grow, reset, upload, dispatch. -/
def runPipeline (s : PlanState) (A B : List Keypoint) (rsq : ℚ) : PlanState :=
  dispatchState (uploadState (resetState (growState s A.length B.length)) A B)
    A B rsq

/-- The method `MatchPlan.match` (match.py 168–211); `match` is a reserved word in Lean,
hence `matchSets`.  Returns the final plan state, the host-visible event
trace, and the result (or raised error). -/
def matchSets (s : PlanState) (nkp1 nkp2 : NDInput) (rsq : ℚ) :
    PlanState × List Event × Except MatchErr (List (Keypoint × Keypoint)) :=
  if nkp1.ndim ≠ 1 ∨ nkp2.ndim ≠ 1 ∨ nkp1.recarray = false ∨ nkp2.recarray = false then
    (s, [], Except.error MatchErr.assertionError)
  else
    (runPipeline s nkp1.data nkp2.data rsq,
     Event.lock :: growEvents s nkp1.data.length nkp2.data.length ++
       [Event.reset, Event.uploadKp1, Event.uploadKp2, Event.dispatch,
        Event.downloadCnt, Event.downloadMatch, Event.unlock],
     assembleResult nkp1.data nkp2.data (runPipeline s nkp1.data nkp2.data rsq))

/-- C8: a call whose inputs have the wrong rank or are not record arrays
fails the assertions at the top of `match` with the plan state unchanged and
an empty event trace: the lock is never taken and no buffer is grown, reset
or written. -/
theorem match_invalid_input_no_effects (s : PlanState) (nkp1 nkp2 : NDInput)
    (rsq : ℚ)
    (h : nkp1.ndim ≠ 1 ∨ nkp2.ndim ≠ 1 ∨ nkp1.recarray = false ∨
      nkp2.recarray = false) :
    matchSets s nkp1 nkp2 rsq = (s, [], Except.error MatchErr.assertionError) := by
  rw [matchSets, if_pos h]

/-- Witness for `match_invalid_input_no_effects`: a rank-2 first input. -/
theorem match_invalid_input_no_effects_witness :
    matchSets (mkPlan 4) ⟨2, true, []⟩ ⟨1, true, []⟩ 1 =
      (mkPlan 4, [], Except.error MatchErr.assertionError) :=
  match_invalid_input_no_effects (mkPlan 4) ⟨2, true, []⟩ ⟨1, true, []⟩ 1
    (Or.inl (by decide))

/-- C9: on a valid call the trace is lock, growth warnings, reset, uploads,
dispatch, downloads, unlock — so the reset strictly precedes the uploads and
the kernel dispatch (growth warnings are the only events before it) — and the
reset leaves every working buffer at its sentinel: both keypoint buffers hold
the −1/0 sentinel record in every cell, every cell of the match buffer is −1,
and the counter is 0. -/
theorem match_resets_before_upload (s : PlanState) (nkp1 nkp2 : NDInput)
    (rsq : ℚ) (h1 : nkp1.ndim = 1) (h2 : nkp2.ndim = 1)
    (h3 : nkp1.recarray = true) (h4 : nkp2.recarray = true) :
    (matchSets s nkp1 nkp2 rsq).2.1 =
      Event.lock :: growEvents s nkp1.data.length nkp2.data.length ++
        [Event.reset, Event.uploadKp1, Event.uploadKp2, Event.dispatch,
         Event.downloadCnt, Event.downloadMatch, Event.unlock] ∧
    (∀ e ∈ growEvents s nkp1.data.length nkp2.data.length,
        e = Event.growKp1 ∨ e = Event.growKp2 ∨ e = Event.growMatch) ∧
    (resetState (growState s nkp1.data.length nkp2.data.length)).kp1buf =
      List.replicate (growState s nkp1.data.length nkp2.data.length).capKp1
        sentinelKp ∧
    (resetState (growState s nkp1.data.length nkp2.data.length)).kp2buf =
      List.replicate (growState s nkp1.data.length nkp2.data.length).capKp2
        sentinelKp ∧
    (resetState (growState s nkp1.data.length nkp2.data.length)).matchBuf =
      List.replicate
        ((growState s nkp1.data.length nkp2.data.length).matchRows *
          (growState s nkp1.data.length nkp2.data.length).matchCols) (-1) ∧
    (resetState (growState s nkp1.data.length nkp2.data.length)).cntBuf = 0 := by
  have hv : ¬ (nkp1.ndim ≠ 1 ∨ nkp2.ndim ≠ 1 ∨ nkp1.recarray = false ∨
      nkp2.recarray = false) := by
    push_neg
    refine ⟨h1, h2, ?_, ?_⟩
    · simp [h3]
    · simp [h4]
  refine ⟨?_, ?_, rfl, rfl, rfl, rfl⟩
  · rw [matchSets, if_neg hv]
  · intro e he
    rw [growEvents] at he
    simp only [List.mem_append] at he
    rcases he with (he | he) | he
    · split at he
      · exact Or.inl (List.mem_singleton.mp he)
      · exact absurd he (List.not_mem_nil e)
    · split at he
      · exact Or.inr (Or.inl (List.mem_singleton.mp he))
      · exact absurd he (List.not_mem_nil e)
    · split at he
      · exact Or.inr (Or.inr (List.mem_singleton.mp he))
      · exact absurd he (List.not_mem_nil e)

/-- Witness for `match_resets_before_upload` on a small valid call. -/
theorem match_resets_before_upload_witness :
    (matchSets (mkPlan 2) ⟨1, true, []⟩ ⟨1, true, []⟩ 1).2.1 =
      Event.lock :: growEvents (mkPlan 2) 0 0 ++
        [Event.reset, Event.uploadKp1, Event.uploadKp2, Event.dispatch,
         Event.downloadCnt, Event.downloadMatch, Event.unlock] ∧
    (∀ e ∈ growEvents (mkPlan 2) 0 0,
        e = Event.growKp1 ∨ e = Event.growKp2 ∨ e = Event.growMatch) ∧
    (resetState (growState (mkPlan 2) 0 0)).kp1buf =
      List.replicate (growState (mkPlan 2) 0 0).capKp1 sentinelKp ∧
    (resetState (growState (mkPlan 2) 0 0)).kp2buf =
      List.replicate (growState (mkPlan 2) 0 0).capKp2 sentinelKp ∧
    (resetState (growState (mkPlan 2) 0 0)).matchBuf =
      List.replicate
        ((growState (mkPlan 2) 0 0).matchRows *
          (growState (mkPlan 2) 0 0).matchCols) (-1) ∧
    (resetState (growState (mkPlan 2) 0 0)).cntBuf = 0 :=
  match_resets_before_upload (mkPlan 2) ⟨1, true, []⟩ ⟨1, true, []⟩ 1
    rfl rfl rfl rfl

/-- C3 (code bug): a plan of default capacity 16 holds a match buffer of 16
index pairs; a call with two 20-element inputs leaves it at 16 pairs even
though `min(|A|, |B|) = 20`, because the growth trigger at match.py 187
compares `min` against the buffer's total int32 element count (2 × 16 = 32),
not its pair capacity. -/
theorem match_buffer_capacity_bug :
    ((matchSets (mkPlan 16) ⟨1, true, List.replicate 20 (kpc 0 0)⟩
        ⟨1, true, List.replicate 20 (kpc 1 1)⟩ 1).1).matchRows = 16 ∧
    ((matchSets (mkPlan 16) ⟨1, true, List.replicate 20 (kpc 0 0)⟩
        ⟨1, true, List.replicate 20 (kpc 1 1)⟩ 1).1).matchCols = 2 ∧
    pairCapacity ((matchSets (mkPlan 16) ⟨1, true, List.replicate 20 (kpc 0 0)⟩
        ⟨1, true, List.replicate 20 (kpc 1 1)⟩ 1).1) = 16 ∧
    min (List.replicate 20 (kpc 1 1)).length (List.replicate 20 (kpc 0 0)).length
      = 20 :=
  ⟨rfl, rfl, rfl, rfl⟩

/-- A keypoint whose every coordinate and descriptor byte is `v`. -/
def kpd (v : ℚ) : Keypoint := ⟨v, v, 0, 0, List.replicate 128 v⟩

/-- Five pairwise distinct keypoints. -/
def fiveKps : List Keypoint := [kpd 0, kpd 1, kpd 2, kpd 3, kpd 4]

/-- The list `fiveKps` as a valid rank-1 record-array input. -/
def inFive : NDInput := ⟨1, true, fiveKps⟩

/-- C4 (code bug): matching five keypoints against themselves on a plan of
default capacity 2 grows the match buffer to a rank-1 `(5,)` array
(match.py 188), after which the download indexing `matching[:size, 0]`
(match.py 209) raises `IndexError`; the same call on a plan pre-sized to
capacity 8 succeeds and returns the full five-pair identity result.  Growth
of the match buffer is therefore not transparent. -/
theorem match_growth_crash_bug :
    (matchSets (mkPlan 2) inFive inFive 1).2.2 =
      Except.error MatchErr.indexError ∧
    (matchSets (mkPlan 8) inFive inFive 1).2.2 =
      Except.ok (fiveKps.map fun p => (p, p)) := by
  constructor
  · with_unfolding_all rfl
  · with_unfolding_all rfl

/-- Squared descriptor distances are non-negative. -/
theorem descDist_nonneg (p q : Keypoint) : 0 ≤ descDist p q := by
  apply List.sum_nonneg
  intro x hx
  simp only [List.mem_map] at hx
  obtain ⟨ab, _, rfl⟩ := hx
  positivity

/-- One scan step preserves: the best index stays below `n` and recorded
distances stay non-negative. -/
theorem bestTwoStep_inv (acc : Option (ℚ × ℕ) × Option ℚ) (j : ℕ) (d : ℚ)
    (n : ℕ) (hj : j < n) (hd : 0 ≤ d)
    (hb : ∀ bd bi, acc.1 = some (bd, bi) → bi < n ∧ 0 ≤ bd)
    (hs : ∀ sd, acc.2 = some sd → 0 ≤ sd) :
    (∀ bd bi, (bestTwoStep acc (j, d)).1 = some (bd, bi) → bi < n ∧ 0 ≤ bd) ∧
    (∀ sd, (bestTwoStep acc (j, d)).2 = some sd → 0 ≤ sd) := by
  obtain ⟨b, s⟩ := acc
  rcases b with _ | ⟨bd0, bi0⟩
  · refine ⟨?_, ?_⟩
    · intro bd bi h
      simp only [bestTwoStep, Option.some.injEq, Prod.mk.injEq] at h
      exact ⟨h.2 ▸ hj, h.1 ▸ hd⟩
    · intro sd h
      simp only [bestTwoStep] at h
      exact hs sd h
  · have hb0 : bi0 < n ∧ 0 ≤ bd0 := hb bd0 bi0 rfl
    rcases s with _ | sd0
    · constructor
      · intro bd bi h
        simp only [bestTwoStep] at h
        split_ifs at h <;>
          simp only [Option.some.injEq, Prod.mk.injEq] at h
        · exact ⟨h.2 ▸ hj, h.1 ▸ hd⟩
        · exact ⟨h.2 ▸ hb0.1, h.1 ▸ hb0.2⟩
      · intro sd h
        simp only [bestTwoStep] at h
        split_ifs at h <;> simp only [Option.some.injEq] at h
        · exact h ▸ hb0.2
        · exact h ▸ hd
    · have hs0 : 0 ≤ sd0 := hs sd0 rfl
      constructor
      · intro bd bi h
        simp only [bestTwoStep] at h
        split_ifs at h <;>
          simp only [Option.some.injEq, Prod.mk.injEq] at h
        · exact ⟨h.2 ▸ hj, h.1 ▸ hd⟩
        · exact ⟨h.2 ▸ hb0.1, h.1 ▸ hb0.2⟩
        · exact ⟨h.2 ▸ hb0.1, h.1 ▸ hb0.2⟩
      · intro sd h
        simp only [bestTwoStep] at h
        split_ifs at h <;> simp only [Option.some.injEq] at h
        · exact h ▸ hb0.2
        · exact h ▸ hd
        · exact h ▸ hs0

/-- Fold form of `bestTwoStep_inv`. -/
theorem bestTwo_fold_inv (l : List (ℕ × ℚ)) (acc : Option (ℚ × ℕ) × Option ℚ)
    (n : ℕ) (hl : ∀ p ∈ l, p.1 < n ∧ 0 ≤ p.2)
    (hb : ∀ bd bi, acc.1 = some (bd, bi) → bi < n ∧ 0 ≤ bd)
    (hs : ∀ sd, acc.2 = some sd → 0 ≤ sd) :
    (∀ bd bi, (l.foldl bestTwoStep acc).1 = some (bd, bi) → bi < n ∧ 0 ≤ bd) ∧
    (∀ sd, (l.foldl bestTwoStep acc).2 = some sd → 0 ≤ sd) := by
  induction l generalizing acc with
  | nil => exact ⟨hb, hs⟩
  | cons hd tl ih =>
    have hhd := hl hd (List.mem_cons_self _ _)
    obtain ⟨hstep1, hstep2⟩ :=
      bestTwoStep_inv acc hd.1 hd.2 n hhd.1 hhd.2 hb hs
    rw [List.foldl_cons]
    exact ih (bestTwoStep acc (hd.1, hd.2))
      (fun p hp => hl p (List.mem_cons_of_mem _ hp)) hstep1 hstep2

/-- Invariants of the best/second scan: the best index is a valid set-B
index and both recorded distances are non-negative. -/
theorem bestTwo_inv (a : Keypoint) (B : List Keypoint) :
    (∀ bd bi, (bestTwo a B).1 = some (bd, bi) → bi < B.length ∧ 0 ≤ bd) ∧
    (∀ sd, (bestTwo a B).2 = some sd → 0 ≤ sd) := by
  rw [bestTwo]
  apply bestTwo_fold_inv
  · intro p hp
    obtain ⟨j, dd⟩ := p
    obtain ⟨h1, h2⟩ := List.of_mem_zip hp
    refine ⟨List.mem_range.mp h1, ?_⟩
    obtain ⟨q, _, rfl⟩ := List.mem_map.mp h2
    exact descDist_nonneg a q
  · intro bd bi h
    exact absurd h (by simp)
  · intro sd h
    exact absurd h (by simp)

/-- The acceptance test is monotone in the squared threshold (second-best
distances are non-negative). -/
theorem acceptBest_mono (r1 r2 : ℚ) (h12 : r1 ≤ r2)
    (x : Option (ℚ × ℕ) × Option ℚ) (hx : ∀ sd, x.2 = some sd → 0 ≤ sd)
    (j : ℕ) (hacc : acceptBest r1 x = some j) : acceptBest r2 x = some j := by
  obtain ⟨b, s⟩ := x
  rcases b with _ | ⟨bd, bi⟩
  · simp [acceptBest] at hacc
  · rcases s with _ | sd
    · simpa [acceptBest] using hacc
    · have hsd : 0 ≤ sd := hx sd rfl
      simp only [acceptBest] at hacc ⊢
      split_ifs at hacc with hle
      rw [if_pos (le_trans hle (mul_le_mul_of_nonneg_right h12 hsd))]
      exact hacc

/-- A `filterMap` with a pointwise-stronger function is at most as long. -/
theorem length_filterMap_mono {α β : Type} (l : List α) (f g : α → Option β)
    (h : ∀ x ∈ l, ∀ b, f x = some b → g x = some b) :
    (l.filterMap f).length ≤ (l.filterMap g).length := by
  induction l with
  | nil => simp
  | cons a tl ih =>
    have htl := ih fun x hx b hb => h x (List.mem_cons_of_mem _ hx) b hb
    cases hfa : f a with
    | none =>
      rw [List.filterMap_cons_none hfa]
      cases hga : g a with
      | none =>
        rw [List.filterMap_cons_none hga]
        exact htl
      | some b =>
        rw [List.filterMap_cons_some hga]
        simp only [List.length_cons]
        omega
    | some b =>
      rw [List.filterMap_cons_some hfa,
        List.filterMap_cons_some (h a (List.mem_cons_self _ _) b hfa)]
      simpa using htl

/-- C7: for fixed keypoint sets A and B, raising the distance-ratio threshold
from `t1` to `t2` (each applied squared, as the host passes `ratio²` to the
kernel) preserves every accepted match and never decreases the number of
accepted matches. -/
theorem ratio_test_monotone (A B : List Keypoint) (t1 t2 : ℚ)
    (h0 : 0 ≤ t1) (h12 : t1 ≤ t2) :
    (∀ p ∈ kernelPairs A B (t1 * t1), p ∈ kernelPairs A B (t2 * t2)) ∧
    (kernelPairs A B (t1 * t1)).length ≤ (kernelPairs A B (t2 * t2)).length := by
  have hr : t1 * t1 ≤ t2 * t2 := mul_le_mul h12 h12 h0 (le_trans h0 h12)
  have hpoint : ∀ i ∈ List.range A.length, ∀ p,
      kernelEntry A B (t1 * t1) i = some p →
        kernelEntry A B (t2 * t2) i = some p := by
    intro i _ p hp
    unfold kernelEntry at hp ⊢
    cases hA : A[i]? with
    | none => simp [hA] at hp
    | some a =>
      simp only [hA] at hp ⊢
      cases hacc : acceptBest (t1 * t1) (bestTwo a B) with
      | none => simp [hacc] at hp
      | some j =>
        rw [hacc] at hp
        rw [acceptBest_mono (t1 * t1) (t2 * t2) hr _ (bestTwo_inv a B).2 j hacc]
        exact hp
  constructor
  · intro p hp
    rw [kernelPairs] at hp ⊢
    obtain ⟨i, hi, hfi⟩ := List.mem_filterMap.mp hp
    exact List.mem_filterMap.mpr ⟨i, hi, hpoint i hi p hfi⟩
  · exact length_filterMap_mono _ _ _ hpoint

/-- Witness for `ratio_test_monotone` at thresholds 1/2 ≤ 1. -/
theorem ratio_test_monotone_witness :
    (∀ p ∈ kernelPairs fiveKps fiveKps ((1 : ℚ)/2 * ((1 : ℚ)/2)),
        p ∈ kernelPairs fiveKps fiveKps ((1 : ℚ) * 1)) ∧
    (kernelPairs fiveKps fiveKps ((1 : ℚ)/2 * ((1 : ℚ)/2))).length ≤
      (kernelPairs fiveKps fiveKps ((1 : ℚ) * 1)).length :=
  ratio_test_monotone fiveKps fiveKps ((1 : ℚ)/2) 1 (by norm_num) (by norm_num)

/-- An accepted index is the recorded best-candidate index. -/
theorem acceptBest_some_best (rsq : ℚ) (x : Option (ℚ × ℕ) × Option ℚ) (j : ℕ)
    (h : acceptBest rsq x = some j) : ∃ bd, x.1 = some (bd, j) := by
  obtain ⟨b, s⟩ := x
  rcases b with _ | ⟨bd, bi⟩
  · simp [acceptBest] at h
  · rcases s with _ | sd
    · simp only [acceptBest, Option.some.injEq] at h
      exact ⟨bd, by rw [h]⟩
    · simp only [acceptBest] at h
      split_ifs at h
      simp only [Option.some.injEq] at h
      exact ⟨bd, by rw [h]⟩

/-- Kernel index pairs point into the two input sets. -/
theorem kernelPairs_mem_bounds (A B : List Keypoint) (rsq : ℚ) (p : ℕ × ℕ)
    (hp : p ∈ kernelPairs A B rsq) : p.1 < A.length ∧ p.2 < B.length := by
  rw [kernelPairs] at hp
  obtain ⟨i, hi, hfi⟩ := List.mem_filterMap.mp hp
  rw [kernelEntry] at hfi
  cases hA : A[i]? with
  | none => simp [hA] at hfi
  | some a =>
    simp only [hA] at hfi
    obtain ⟨j, hj, hpj⟩ := Option.map_eq_some'.mp hfi
    obtain ⟨bd, hbest⟩ := acceptBest_some_best rsq _ j hj
    have hjB : j < B.length := ((bestTwo_inv a B).1 bd j hbest).1
    rw [← hpj]
    exact ⟨List.mem_range.mp hi, hjB⟩

/-- The kernel accepts at most one pair per element of set A. -/
theorem kernelPairs_length_le (A B : List Keypoint) (rsq : ℚ) :
    (kernelPairs A B rsq).length ≤ A.length := by
  rw [kernelPairs]
  have h := List.length_filterMap_le (kernelEntry A B rsq) (List.range A.length)
  simpa using h

/-- Even cells of the flattened pair buffer are the first indices. -/
theorem flatPairs_getD_fst (ps : List (ℕ × ℕ)) (rest : List ℤ) :
    ∀ i : ℕ, i < ps.length →
      (flatPairs ps ++ rest).getD (2 * i) 0 = ((ps.getD i (0, 0)).1 : ℤ) := by
  induction ps with
  | nil =>
    intro i hi
    simp at hi
  | cons p tl ih =>
    intro i hi
    cases i with
    | zero => simp [flatPairs]
    | succ i2 =>
      have h2 : 2 * (i2 + 1) = 2 * i2 + 1 + 1 := by ring
      rw [h2]
      show ((p.1 : ℤ) :: (p.2 : ℤ) :: (flatPairs tl ++ rest)).getD (2 * i2 + 1 + 1) 0 =
        (((p :: tl).getD (i2 + 1) (0, 0)).1 : ℤ)
      rw [List.getD_cons_succ, List.getD_cons_succ]
      exact ih i2 (by simpa using hi)

/-- Odd cells of the flattened pair buffer are the second indices. -/
theorem flatPairs_getD_snd (ps : List (ℕ × ℕ)) (rest : List ℤ) :
    ∀ i : ℕ, i < ps.length →
      (flatPairs ps ++ rest).getD (2 * i + 1) 0 = ((ps.getD i (0, 0)).2 : ℤ) := by
  induction ps with
  | nil =>
    intro i hi
    simp at hi
  | cons p tl ih =>
    intro i hi
    cases i with
    | zero => simp [flatPairs]
    | succ i2 =>
      have h2 : 2 * (i2 + 1) + 1 = 2 * i2 + 1 + 1 + 1 := by ring
      rw [h2]
      show ((p.1 : ℤ) :: (p.2 : ℤ) :: (flatPairs tl ++ rest)).getD (2 * i2 + 1 + 1 + 1) 0 =
        (((p :: tl).getD (i2 + 1) (0, 0)).2 : ℤ)
      rw [List.getD_cons_succ, List.getD_cons_succ]
      exact ih i2 (by simpa using hi)

/-- A successful download/assembly pins down the shape conditions and the
returned list. -/
theorem assembleResult_ok (A B : List Keypoint) (st : PlanState)
    (r : List (Keypoint × Keypoint))
    (hok : assembleResult A B st = Except.ok r) :
    st.matchCols = 2 ∧ st.cntBuf.toNat ≤ st.matchRows ∧
    r = (List.range st.cntBuf.toNat).map fun i =>
      (npIndex A (st.matchBuf.getD (2 * i) 0),
       npIndex B (st.matchBuf.getD (2 * i + 1) 0)) := by
  rw [assembleResult] at hok
  split_ifs at hok with h1 h2 h3
  exact ⟨not_ne_iff.mp h1, not_lt.mp h2, (Except.ok.inj hok).symm⟩

/-- The two outcomes of a `match` call: assertion failure with untouched
state, or the full locked pipeline plus assembly. -/
theorem matchSets_cases (s : PlanState) (k1 k2 : NDInput) (rsq : ℚ) :
    matchSets s k1 k2 rsq = (s, [], Except.error MatchErr.assertionError) ∨
      matchSets s k1 k2 rsq =
        (runPipeline s k1.data k2.data rsq,
         Event.lock :: growEvents s k1.data.length k2.data.length ++
           [Event.reset, Event.uploadKp1, Event.uploadKp2, Event.dispatch,
            Event.downloadCnt, Event.downloadMatch, Event.unlock],
         assembleResult k1.data k2.data (runPipeline s k1.data k2.data rsq)) := by
  rw [matchSets]
  split
  · exact Or.inl rfl
  · exact Or.inr rfl

/-- The pipeline leaves the match-buffer shape chosen by the growth step. -/
theorem runPipeline_matchCols (s : PlanState) (A B : List Keypoint) (rsq : ℚ) :
    (runPipeline s A B rsq).matchCols = (growState s A.length B.length).matchCols :=
  rfl

/-- As `runPipeline_matchCols`, for the row count. -/
theorem runPipeline_matchRows (s : PlanState) (A B : List Keypoint) (rsq : ℚ) :
    (runPipeline s A B rsq).matchRows = (growState s A.length B.length).matchRows :=
  rfl

/-- The downloaded counter is the number of kernel pairs actually written. -/
theorem runPipeline_cntBuf (s : PlanState) (A B : List Keypoint) (rsq : ℚ) :
    (runPipeline s A B rsq).cntBuf =
      (((kernelPairs A B rsq).take
        (min (growState s A.length B.length).matchRows
          ((growState s A.length B.length).matchRows *
            (growState s A.length B.length).matchCols / 2))).length : ℤ) :=
  rfl

/-- The match buffer starts with the written pairs, row-major. -/
theorem runPipeline_matchBuf (s : PlanState) (A B : List Keypoint) (rsq : ℚ) :
    ∃ rest : List ℤ, (runPipeline s A B rsq).matchBuf =
      flatPairs ((kernelPairs A B rsq).take
        (min (growState s A.length B.length).matchRows
          ((growState s A.length B.length).matchRows *
            (growState s A.length B.length).matchCols / 2))) ++ rest :=
  ⟨_, rfl⟩

/-- numpy indexing at an in-range natural index is plain list indexing. -/
theorem npIndex_natCast (l : List Keypoint) (n : ℕ) (h : n < l.length) :
    npIndex l (n : ℤ) = l.get ⟨n, h⟩ := by
  rw [npIndex, if_pos (Int.natCast_nonneg n), Int.toNat_ofNat,
    List.getD_eq_getElem?_getD, List.getElem?_eq_getElem h]
  simp

/-- A successful pipeline run returns exactly the kernel pairs, each entry
copied from the caller-supplied inputs by index. -/
theorem pipeline_ok_spec (s : PlanState) (A B : List Keypoint) (rsq : ℚ)
    (r : List (Keypoint × Keypoint))
    (hok : assembleResult A B (runPipeline s A B rsq) = Except.ok r) :
    (runPipeline s A B rsq).cntBuf = (r.length : ℤ) ∧
    ∀ i : ℕ, i < r.length →
      ∃ p : ℕ × ℕ, (kernelPairs A B rsq)[i]? = some p ∧
        ∃ a b, A[p.1]? = some a ∧ B[p.2]? = some b ∧ r[i]? = some (a, b) := by
  obtain ⟨hcols, hsize, hr⟩ := assembleResult_ok A B _ r hok
  have hcolsG : (growState s A.length B.length).matchCols = 2 :=
    (runPipeline_matchCols s A B rsq).symm.trans hcols
  have hcap : min (growState s A.length B.length).matchRows
      ((growState s A.length B.length).matchRows *
        (growState s A.length B.length).matchCols / 2) =
      (growState s A.length B.length).matchRows := by
    rw [hcolsG]
    omega
  have hcnt : (runPipeline s A B rsq).cntBuf =
      (((kernelPairs A B rsq).take
        (growState s A.length B.length).matchRows).length : ℤ) := by
    rw [runPipeline_cntBuf, hcap]
  have hsizeNat : (runPipeline s A B rsq).cntBuf.toNat =
      ((kernelPairs A B rsq).take
        (growState s A.length B.length).matchRows).length := by
    rw [hcnt, Int.toNat_ofNat]
  obtain ⟨rest, hbuf⟩ := runPipeline_matchBuf s A B rsq
  rw [hcap] at hbuf
  rw [hsizeNat] at hr
  have hlt := List.length_take (growState s A.length B.length).matchRows
    (kernelPairs A B rsq)
  have hwle : ((kernelPairs A B rsq).take
      (growState s A.length B.length).matchRows).length ≤
      (kernelPairs A B rsq).length := by omega
  have hrlen : r.length = ((kernelPairs A B rsq).take
      (growState s A.length B.length).matchRows).length := by
    rw [hr, List.length_map, List.length_range]
  constructor
  · rw [hcnt, hrlen]
  · intro i hi
    rw [hrlen] at hi
    have hipairs : i < (kernelPairs A B rsq).length := lt_of_lt_of_le hi hwle
    have htake : ((kernelPairs A B rsq).take
        (growState s A.length B.length).matchRows).getD i (0, 0) =
        (kernelPairs A B rsq).get ⟨i, hipairs⟩ := by
      have h1 : ((kernelPairs A B rsq).take
          (growState s A.length B.length).matchRows)[i]? =
          (kernelPairs A B rsq)[i]? :=
        List.getElem?_take_of_lt (by omega)
      rw [List.getD_eq_getElem?_getD, h1, List.getElem?_eq_getElem hipairs]
      simp
    have hfst : (runPipeline s A B rsq).matchBuf.getD (2 * i) 0 =
        (((kernelPairs A B rsq).get ⟨i, hipairs⟩).1 : ℤ) := by
      rw [hbuf, flatPairs_getD_fst _ rest i hi, htake]
    have hsnd : (runPipeline s A B rsq).matchBuf.getD (2 * i + 1) 0 =
        (((kernelPairs A B rsq).get ⟨i, hipairs⟩).2 : ℤ) := by
      rw [hbuf, flatPairs_getD_snd _ rest i hi, htake]
    have hmem : (kernelPairs A B rsq).get ⟨i, hipairs⟩ ∈ kernelPairs A B rsq :=
      List.get_mem _ i hipairs
    obtain ⟨hb1, hb2⟩ := kernelPairs_mem_bounds A B rsq _ hmem
    refine ⟨(kernelPairs A B rsq).get ⟨i, hipairs⟩, ?_,
      A.get ⟨((kernelPairs A B rsq).get ⟨i, hipairs⟩).1, hb1⟩,
      B.get ⟨((kernelPairs A B rsq).get ⟨i, hipairs⟩).2, hb2⟩, ?_, ?_, ?_⟩
    · rw [List.getElem?_eq_getElem hipairs]
      simp
    · rw [List.getElem?_eq_getElem hb1]
      simp
    · rw [List.getElem?_eq_getElem hb2]
      simp
    · rw [hr, List.getElem?_map, List.getElem?_range hi]
      simp only [Option.map_some']
      rw [hfst, hsnd, npIndex_natCast A _ hb1, npIndex_natCast B _ hb2]

/-- C1: whenever `match` returns a result, the downloaded counter equals the
result length, and for every `i` below it the `i`-th Match Pair is exactly
`(setA[m_i0], setB[m_i1])` — whole records, hence every field including x, y,
scale, angle and all descriptor bytes — where `(m_i0, m_i1)` is the `i`-th
downloaded index pair. -/
theorem match_copies_from_inputs (s : PlanState) (nkp1 nkp2 : NDInput)
    (rsq : ℚ) (r : List (Keypoint × Keypoint))
    (hok : (matchSets s nkp1 nkp2 rsq).2.2 = Except.ok r) :
    ((matchSets s nkp1 nkp2 rsq).1).cntBuf = (r.length : ℤ) ∧
    ∀ i : ℕ, i < r.length →
      ∃ p : ℕ × ℕ, (kernelPairs nkp1.data nkp2.data rsq)[i]? = some p ∧
        ∃ a b, nkp1.data[p.1]? = some a ∧ nkp2.data[p.2]? = some b ∧
          r[i]? = some (a, b) := by
  rcases matchSets_cases s nkp1 nkp2 rsq with hcase | hcase <;>
    rw [hcase] at hok ⊢
  · exact absurd hok (by simp)
  · exact pipeline_ok_spec s nkp1.data nkp2.data rsq r hok

/-- Witness for `match_copies_from_inputs`: the self-match of five distinct
keypoints on a pre-sized plan. -/
theorem match_copies_from_inputs_witness :
    ((matchSets (mkPlan 8) inFive inFive 1).1).cntBuf =
        ((fiveKps.map fun p => (p, p)).length : ℤ) ∧
    ∀ i : ℕ, i < (fiveKps.map fun p => (p, p)).length →
      ∃ p : ℕ × ℕ, (kernelPairs inFive.data inFive.data 1)[i]? = some p ∧
        ∃ a b, inFive.data[p.1]? = some a ∧ inFive.data[p.2]? = some b ∧
          (fiveKps.map fun p => (p, p))[i]? = some (a, b) :=
  match_copies_from_inputs (mkPlan 8) inFive inFive 1
    (fiveKps.map fun p => (p, p)) (by with_unfolding_all rfl)

/-- Five identical set-A keypoints. -/
def manyA : NDInput := ⟨1, true, List.replicate 5 (kpd 0)⟩

/-- Two distinct set-B keypoints; the first is the best match of every
element of `manyA`. -/
def twoB : NDInput := ⟨1, true, [kpd 0, kpd 1]⟩

/-- C2 counterexample: five identical set-A keypoints all pass the ratio test
against the same set-B element, so `match` returns 5 pairs although
`min(|A|, |B|) = 2` — the promised bound `len(result) ≤ min(|A|, |B|)` fails. -/
theorem match_length_min_bound_cex :
    ((matchSets (mkPlan 16) manyA twoB 1).2.2.map List.length) = Except.ok 5 ∧
    min manyA.data.length twoB.data.length = 2 := by
  constructor
  · with_unfolding_all rfl
  · rfl

/-- C2 amended: every result of `match` has length at most `len(setA)` (one
accepted match per set-A element); the `min` with `len(setB)` does not bound
the result because several set-A elements may match the same set-B element. -/
theorem match_length_le_lenA (s : PlanState) (nkp1 nkp2 : NDInput) (rsq : ℚ)
    (r : List (Keypoint × Keypoint))
    (hok : (matchSets s nkp1 nkp2 rsq).2.2 = Except.ok r) :
    r.length ≤ nkp1.data.length := by
  rcases matchSets_cases s nkp1 nkp2 rsq with hcase | hcase <;>
    rw [hcase] at hok
  · exact absurd hok (by simp)
  · have hok2 : assembleResult nkp1.data nkp2.data
        (runPipeline s nkp1.data nkp2.data rsq) = Except.ok r := hok
    obtain ⟨hcols, hsize, hr⟩ := assembleResult_ok _ _ _ _ hok2
    rw [hr, List.length_map, List.length_range]
    have h1 := runPipeline_cntBuf s nkp1.data nkp2.data rsq
    have h2 : (runPipeline s nkp1.data nkp2.data rsq).cntBuf.toNat ≤
        (kernelPairs nkp1.data nkp2.data rsq).length := by
      rw [h1, Int.toNat_ofNat]
      have hlt := List.length_take
        (min (growState s nkp1.data.length nkp2.data.length).matchRows
          ((growState s nkp1.data.length nkp2.data.length).matchRows *
            (growState s nkp1.data.length nkp2.data.length).matchCols / 2))
        (kernelPairs nkp1.data nkp2.data rsq)
      omega
    exact le_trans h2 (kernelPairs_length_le nkp1.data nkp2.data rsq)

/-- Witness for `match_length_le_lenA` on the five-keypoint self-match. -/
theorem match_length_le_lenA_witness :
    (fiveKps.map fun p => (p, p)).length ≤ inFive.data.length :=
  match_length_le_lenA (mkPlan 8) inFive inFive 1
    (fiveKps.map fun p => (p, p)) (by with_unfolding_all rfl)
